import Mathlib

/-!
Verification of the sharded concurrent hash join coordinator
(`ConcurrentHashJoin`, namespace `DB::JoinStuff`).

The development is a shallow embedding of the coordinator's source:

* a `Block` is an ordered sequence of named, typed columns of equal length
  (values are modelled as `Nat`, standing for the 64-bit cells);
* `buildHashExpressionAction` builds the per-shard filter expressions
  `cityHash64(k1,...,km) % slots = i` for `i = 0 .. slots-1`; the external
  hash `cityHash64` over a key tuple is an abstract parameter
  `h : List Val → Nat`, and key columns are identified positionally by
  `keyIdxs` (the name resolution of the sample-block schema);
* `dispatchBlock` evaluates the filter expressions over the block and
  filters every original column with each of the `slots` per-row masks,
  exactly as the source does with `FilterDescription`;
* `scanPass`/`scanLoop` embed the pending-worklist insertion loop of
  `addJoinedBlock`; the non-blocking `mutex.try_lock` outcome is an
  explicit oracle `avail : pass → shard → Bool` (in the sequential
  semantics the oracle is constantly `true`);
* the per-shard `HashJoin` engine is external: its stored state is the
  list of inserted blocks, its probe behaviour is a parameter.
-/

namespace CHJ

/-- Cell values of a column (modelling the 64-bit values fed to the hash). -/
abbrev Val := Nat

/-- A columnar batch: named, typed columns, all of equal length. -/
structure Block where
  header : List (String × String)
  cols : List (List Val)
  deriving DecidableEq

/-- The default-constructed `Block` (no columns; `operator bool` is false). -/
def emptyBlock : Block := ⟨[], []⟩

/-- Row count of a block, as `Block::rows()`: the common length of its
columns (0 when there are no columns). -/
def Block.nrows (b : Block) : Nat := (b.cols.headD []).length

/-- All columns have length `n`. -/
def ColsWF (cols : List (List Val)) (n : Nat) : Prop := ∀ c ∈ cols, c.length = n

instance (cols : List (List Val)) (n : Nat) : Decidable (ColsWF cols n) := by
  unfold ColsWF; infer_instance

/-- Well-formed block: one header entry per column, all columns of length `n`. -/
def Block.WF (b : Block) (n : Nat) : Prop :=
  b.header.length = b.cols.length ∧ ColsWF b.cols n

instance (b : Block) (n : Nat) : Decidable (b.WF n) := by
  unfold Block.WF; infer_instance

/-- The rows of a column list, read positionally: row `r` is the list of the
`r`-th cell of each column. -/
def blockRows : Nat → List (List Val) → List (List Val)
  | 0, _ => []
  | n + 1, cols => cols.map (fun c => c.headD 0) :: blockRows n (cols.map List.tail)

/-- The rows of a block. -/
def Block.rowsOf (b : Block) : List (List Val) := blockRows b.nrows b.cols

/-- Filter a list by a boolean mask, as `FilterDescription::filter` applied
to one column: keep the entries at the mask's `true` positions, in order. -/
def filterByMask {α : Type} : List Bool → List α → List α
  | m :: ms, x :: xs => if m then x :: filterByMask ms xs else filterByMask ms xs
  | _, _ => []

/-- The key tuple of a row: the values of the key columns, in key order. -/
def keyTuple (keyIdxs : List Nat) (row : List Val) : List Val :=
  keyIdxs.map (fun j => row.getD j 0)

/-- One side's dispatch data: the compiled hash expression (per row, the
`slots` filter values) and the generated filter column names. -/
structure DispatchData where
  hash_expression : List Val → List Bool
  hash_columns_names : List String

/-- The text of the `i`-th generated filter expression. -/
def hashExprName (colsJoined : String) (slots i : Nat) : String :=
  "cityHash64(" ++ colsJoined ++ ")%" ++ toString slots ++ "=" ++ toString i

/-- Embedding of `ConcurrentHashJoin::buildHashExpressionAction`: from the
key columns it builds, for `i = 0 .. slots-1`, the per-row filter value of
`cityHash64(keys) % slots = i`, together with the generated column names. -/
def buildHashExpressionAction (h : List Val → Nat) (slots : Nat)
    (keyIdxs : List Nat) (names : List String) : DispatchData :=
  { hash_expression := fun row =>
      (List.range slots).map (fun i => decide (h (keyTuple keyIdxs row) % slots = i))
    hash_columns_names :=
      (List.range slots).map (hashExprName (String.intercalate "," names) slots) }

/-- The shard index the routing expression assigns to a row. -/
def routeRow (h : List Val → Nat) (keyIdxs : List Nat) (slots : Nat)
    (row : List Val) : Nat :=
  h (keyTuple keyIdxs row) % slots

/-- The shard index encoded by a dispatch data's filter values at a row:
the position of the first `true` filter column, as read back through
`hash_columns_names`. -/
def routingIndexOf (dd : DispatchData) (row : List Val) : Nat :=
  (dd.hash_expression row).findIdx (fun x => x)

/-- Embedding of `ConcurrentHashJoin::dispatchBlock`: evaluate the hash
expression over the block, then for each generated filter column (in order)
filter every original column by that per-row mask, producing one sub-block
per shard with the original header. -/
def dispatchBlock (dd : DispatchData) (b : Block) : List Block :=
  (List.range dd.hash_columns_names.length).map (fun k =>
    { header := b.header
      cols := b.cols.map (filterByMask
        ((blockRows b.nrows b.cols).map (fun row => (dd.hash_expression row).getD k false))) })

/-- Errors surfaced by the coordinator (`ErrorCodes` used by the source). -/
inductive JoinError where
  | badArguments (msg : String)
  | logicalError (msg : String)
  | sizeLimitExceeded (what : String) (rows bytes : Nat)
  deriving DecidableEq

/-- Coordinator state: the fixed shard count, one engine per shard (an
engine's state is the list of blocks inserted into it, in order), the two
dispatch datas built at construction (index 0 = left/probe side, index 1 =
right/build side), and the totals block. -/
structure ConcurrentHashJoin where
  slots : Nat
  engines : List (List Block)
  left_data : DispatchData
  right_data : DispatchData
  totals : Block

/-- Embedding of the `ConcurrentHashJoin` constructor: zero slots is a
`BAD_ARGUMENTS` error; otherwise `slots` fresh empty engines are created and
the two dispatch datas are built from the same hash and slot count, the left
one over the left key columns and the right one over the right key columns. -/
def mkConcurrentHashJoin (h : List Val → Nat) (slots : Nat)
    (lkeys rkeys : List Nat) (lnames rnames : List String) :
    Except JoinError ConcurrentHashJoin :=
  if slots = 0 then Except.error (JoinError.badArguments "Invalid argument slot : 0")
  else Except.ok
    { slots := slots
      engines := List.replicate slots []
      left_data := buildHashExpressionAction h slots lkeys lnames
      right_data := buildHashExpressionAction h slots rkeys rnames
      totals := emptyBlock }

/-- One scan over the pending worklist, as the inner `for` loop of
`addJoinedBlock`: for each pending shard index in order, if its guard is
free (`avail i`, the outcome of `mutex.try_lock`) insert that shard's
dispatched block into its engine and erase the index from the worklist,
otherwise keep the index pending and move on. -/
def scanPass (avail : Nat → Bool) (blocks : List Block) :
    List Nat → List (List Block) → List Nat × List (List Block)
  | [], engines => ([], engines)
  | i :: rest, engines =>
    if avail i then
      scanPass avail blocks rest (engines.set i (engines.getD i [] ++ [blocks.getD i emptyBlock]))
    else
      let r := scanPass avail blocks rest engines
      (i :: r.1, r.2)

/-- The outer `while (!pending_blocks.empty())` loop of `addJoinedBlock`:
repeat scan passes until the worklist is empty. The try-acquire outcomes are
an oracle `avail : pass → shard → Bool`; `fuel` bounds the number of passes
so the embedding is total (`none` = the bound was hit first). -/
def scanLoop (avail : Nat → Nat → Bool) (blocks : List Block) :
    Nat → Nat → List Nat → List (List Block) → Option (List (List Block))
  | _, _, [], engines => some engines
  | 0, _, _ :: _, _ => none
  | fuel + 1, pass, i :: rest, engines =>
    let r := scanPass (avail pass) blocks (i :: rest) engines
    scanLoop avail blocks fuel (pass + 1) r.1 r.2

/-- Modelled from the spec: the per-shard `HashJoin::getTotalRowCount`
(engine code not under `src/`) reports the rows it holds; an engine's row
count is the total row count of the blocks inserted into it. -/
def engineRowCount (e : List Block) : Nat := (e.map Block.nrows).sum

/-- Embedding of `ConcurrentHashJoin::getTotalRowCount`: sum the per-shard
row counts over all engines. -/
def ConcurrentHashJoin.getTotalRowCount (c : ConcurrentHashJoin) : Nat :=
  (c.engines.map engineRowCount).sum

/-- Modelled from the spec: the per-shard `HashJoin::getTotalByteCount`
(engine code not under `src/`) reports the bytes it holds; the per-block
byte measure is an abstract parameter. -/
def engineByteCount (bytes : Block → Nat) (e : List Block) : Nat := (e.map bytes).sum

/-- Embedding of `ConcurrentHashJoin::getTotalByteCount`: sum the per-shard
byte counts over all engines. -/
def ConcurrentHashJoin.getTotalByteCount (c : ConcurrentHashJoin)
    (bytes : Block → Nat) : Nat :=
  (c.engines.map (engineByteCount bytes)).sum

/-- Configured size limits (0 = unlimited, as in `SizeLimits`). -/
structure SizeLimits where
  max_rows : Nat
  max_bytes : Nat
  deriving DecidableEq

/-- Modelled from the spec: `SizeLimits::check` (`Core/SizeLimits`, not
under `src/`) fails with a size-limit-exceeded error naming the operator and
the current counts when a configured limit is exceeded, and returns `true`
otherwise. -/
def SizeLimits.check (l : SizeLimits) (rows bytes : Nat) (what : String) :
    Except JoinError Bool :=
  if (l.max_rows ≠ 0 ∧ l.max_rows < rows) ∨ (l.max_bytes ≠ 0 ∧ l.max_bytes < bytes) then
    Except.error (JoinError.sizeLimitExceeded what rows bytes)
  else Except.ok true

/-- The build-side insertion of one batch in the sequential semantics, where
every `try_lock` succeeds: dispatch the batch with the right-side (build)
dispatch data and insert each sub-block into its shard's engine in one scan
over the worklist `0 .. N-1`. -/
def ConcurrentHashJoin.insertDispatched (c : ConcurrentHashJoin) (b : Block) :
    ConcurrentHashJoin :=
  { c with engines :=
      (scanPass (fun _ => true) (dispatchBlock c.right_data b)
        (List.range (dispatchBlock c.right_data b).length) c.engines).2 }

/-- Embedding of `ConcurrentHashJoin::addJoinedBlock` (sequential
semantics): dispatch and insert all sub-blocks, then, only when
`check_limits` is set, check the recomputed totals against the size limits
under the name "JOIN". -/
def ConcurrentHashJoin.addJoinedBlock (c : ConcurrentHashJoin)
    (limits : SizeLimits) (bytes : Block → Nat) (b : Block) (check_limits : Bool) :
    Except JoinError (ConcurrentHashJoin × Bool) :=
  let c' := c.insertDispatched b
  if check_limits then
    match SizeLimits.check limits c'.getTotalRowCount (c'.getTotalByteCount bytes) "JOIN" with
    | Except.error e => Except.error e
    | Except.ok okv => Except.ok (c', okv)
  else Except.ok (c', true)

/-- The probe loop of `ConcurrentHashJoin::joinBlock`: probe shard `i`'s
engine with its sub-block (the engine's probe behaviour is the parameter
`probe`, returning the output block and whether a non-empty `not_processed`
block was left); the first shard leaving unprocessed rows raises the
`LOGICAL_ERROR`. -/
def probeAll (probe : Nat → Block → Block × Bool) :
    Nat → List Block → Except JoinError (List Block)
  | _, [] => Except.ok []
  | i, d :: rest =>
    let r := probe i d
    if r.2 then Except.error (JoinError.logicalError "not_processed should be empty")
    else
      match probeAll probe (i + 1) rest with
      | Except.error e => Except.error e
      | Except.ok outs => Except.ok (r.1 :: outs)

/-- The per-shard probe outputs, in shard index order. -/
def probeOuts (probe : Nat → Block → Block × Bool) (dispatched : List Block) :
    List Block :=
  (List.range dispatched.length).map (fun i => (probe i (dispatched.getD i emptyBlock)).1)

/-- The concatenation, in shard index order, of the per-shard output
columns at one column position (shards whose output lacks the position
contribute nothing, as their inner loop never reaches it). -/
def concatColsAt (outs : List Block) (pos : Nat) : List Val :=
  (outs.map (fun o => o.cols.getD pos [])).flatten

/-- The reassembly step of `ConcurrentHashJoin::joinBlock`: the result block
takes its names and types from shard 0's output block, and each of its
columns is the concatenation, in shard index order, of the corresponding
per-shard output column. -/
def reassembleBlocks (outs : List Block) : Block :=
  { header := (outs.headD emptyBlock).header
    cols := (List.range (outs.headD emptyBlock).header.length).map (concatColsAt outs) }

/-- Embedding of `ConcurrentHashJoin::joinBlock`: dispatch the probe batch
with the left-side dispatch data, probe every shard (failing on unprocessed
rows), and reassemble the per-shard outputs. -/
def ConcurrentHashJoin.joinBlock (c : ConcurrentHashJoin)
    (probe : Nat → Block → Block × Bool) (b : Block) : Except JoinError Block :=
  match probeAll probe 0 (dispatchBlock c.left_data b) with
  | Except.error e => Except.error e
  | Except.ok outs => Except.ok (reassembleBlocks outs)

/-- Embedding of `ConcurrentHashJoin::setTotals`: only a truthy block (one
with at least one column) overwrites the stored totals. -/
def ConcurrentHashJoin.setTotals (c : ConcurrentHashJoin) (b : Block) :
    ConcurrentHashJoin :=
  if b.cols.isEmpty then c else { c with totals := b }

/-- Embedding of `ConcurrentHashJoin::getTotals`. -/
def ConcurrentHashJoin.getTotals (c : ConcurrentHashJoin) : Block := c.totals

/-- Join kinds (`ASTTableJoin::Kind`). -/
inductive JoinKind where
  | Inner | Left | Right | Full | Cross | Comma
  deriving DecidableEq

/-- Join strictness (`ASTTableJoin::Strictness`). -/
inductive JoinStrictness where
  | Unspecified | RightAny | Any | All | Asof | Semi | Anti
  deriving DecidableEq

/-- Embedding of `isRightOrFull`. -/
def isRightOrFull : JoinKind → Bool
  | JoinKind.Right => true
  | JoinKind.Full => true
  | _ => false

/-- Embedding of `ConcurrentHashJoin::getNonJoinedBlocks`: `ok none` (an
empty `shared_ptr`, the "not applicable" capability) for as-of or semi
strictness or a kind that is not right or full; every other combination
raises the `LOGICAL_ERROR`. `some ()` would stand for a usable capability. -/
def getNonJoinedBlocks (kind : JoinKind) (strictness : JoinStrictness) :
    Except JoinError (Option Unit) :=
  if strictness = JoinStrictness.Asof ∨ strictness = JoinStrictness.Semi ∨
      isRightOrFull kind = false then
    Except.ok none
  else Except.error (JoinError.logicalError "Invalid join type")

instance {ε α : Type} [DecidableEq ε] [DecidableEq α] : DecidableEq (Except ε α) :=
  fun x y =>
    match x, y with
    | Except.ok a, Except.ok b =>
      if h : a = b then Decidable.isTrue (by rw [h])
      else Decidable.isFalse (fun hc => h (Except.ok.inj hc))
    | Except.error a, Except.error b =>
      if h : a = b then Decidable.isTrue (by rw [h])
      else Decidable.isFalse (fun hc => h (Except.error.inj hc))
    | Except.ok _, Except.error _ => Decidable.isFalse (fun hc => Except.noConfusion hc)
    | Except.error _, Except.ok _ => Decidable.isFalse (fun hc => Except.noConfusion hc)

/-! Concrete instances used to exercise the theorems on closed inputs. -/

/-- A concrete stand-in for the external 64-bit hash. -/
def hashW : List Val → Nat := fun ks => ks.foldl (fun a x => a * 31 + x) 7

/-- A concrete four-row, two-column batch. -/
def blockW : Block := ⟨[("k", "UInt64"), ("v", "UInt64")], [[1, 2, 3, 4], [10, 20, 30, 40]]⟩

/-- A concrete single-row, single-column batch. -/
def blockW1 : Block := ⟨[("k", "UInt64")], [[7]]⟩

/-- Concrete dispatch data over two shards keyed on column 0. -/
def ddW : DispatchData := buildHashExpressionAction hashW 2 [0] ["k"]

/-- A concrete two-shard coordinator. -/
def coordW : ConcurrentHashJoin :=
  { slots := 2, engines := [[], []], left_data := ddW, right_data := ddW
    totals := emptyBlock }

/-- A concrete one-shard coordinator. -/
def coordW1 : ConcurrentHashJoin :=
  { slots := 1, engines := [[]]
    left_data := buildHashExpressionAction hashW 1 [0] ["k"]
    right_data := buildHashExpressionAction hashW 1 [0] ["k"]
    totals := emptyBlock }

/-- The one-shard coordinator after one single-row build batch. -/
def coordW1b : ConcurrentHashJoin := coordW1.insertDispatched blockW1

/-- A probe behaviour that echoes the sub-batch and never leaves
unprocessed rows. -/
def probeIdW : Nat → Block → Block × Bool := fun _ b => (b, false)

/-- A one-row size limit with unlimited bytes. -/
def limitsW : SizeLimits := ⟨1, 0⟩

/-- A byte measure that reports zero for every block. -/
def bytesW : Block → Nat := fun _ => 0

/-! Basic lemmas about the columnar primitives. -/

theorem blockRows_length (n : Nat) :
    ∀ cols : List (List Val), (blockRows n cols).length = n := by
  induction n with
  | zero => intro cols; rfl
  | succ n ih => intro cols; simp [blockRows, ih]

theorem filterByMask_length {α : Type} :
    ∀ (mask : List Bool) (l : List α), mask.length = l.length →
      (filterByMask mask l).length = mask.count true := by
  intro mask
  induction mask with
  | nil => intro l _; simp [filterByMask]
  | cons m ms ih =>
    intro l h
    cases l with
    | nil => simp at h
    | cons x xs =>
      simp only [List.length_cons, Nat.add_right_cancel_iff] at h
      cases m with
      | true => simp [filterByMask, ih xs h, List.count_cons]
      | false => simp [filterByMask, ih xs h, List.count_cons]

theorem filterByMask_map_self {α : Type} (p : α → Bool) :
    ∀ l : List α, filterByMask (l.map p) l = l.filter p := by
  intro l
  induction l with
  | nil => rfl
  | cons x xs ih =>
    simp only [List.map_cons, List.filter_cons]
    cases h : p x <;> simp [filterByMask, h, ih]

theorem getD_map_range {α : Type} (f : Nat → α) (d : α) {n k : Nat} (h : k < n) :
    ((List.range n).map f).getD k d = f k := by
  rw [List.getD_eq_getElem _ _ (by simpa using h)]
  simp

theorem map_getD_range {α : Type} (l : List α) (d : α) :
    (List.range l.length).map (fun i => l.getD i d) = l := by
  apply List.ext_getElem
  · simp
  · intro i h1 h2
    simp only [List.getElem_map, List.getElem_range]
    exact List.getD_eq_getElem _ _ h2

theorem findIdx_map {α β : Type} (p : β → Bool) (f : α → β) :
    ∀ l : List α, (l.map f).findIdx p = l.findIdx (fun a => p (f a)) := by
  intro l
  induction l with
  | nil => rfl
  | cons x xs ih => simp [List.findIdx_cons, ih]

theorem findIdx_range_of_uniq :
    ∀ (m : Nat) (p : Nat → Bool) (k : Nat), k < m → p k = true →
      (∀ j, j < k → p j = false) → (List.range m).findIdx p = k := by
  intro m
  induction m with
  | zero => intro p k hk _ _; exact absurd hk (Nat.not_lt_zero k)
  | succ m ih =>
    intro p k hk hpk hprev
    rw [List.range_succ_eq_map, List.findIdx_cons]
    cases k with
    | zero => simp [hpk]
    | succ k' =>
      have h0 : p 0 = false := hprev 0 (Nat.succ_pos k')
      rw [h0]
      simp only [cond_false, findIdx_map]
      have := ih (fun a => p (Nat.succ a)) k' (Nat.lt_of_succ_lt_succ hk) hpk
        (fun j hj => hprev (j + 1) (Nat.succ_lt_succ hj))
      omega

/-- The routing index encoded by `buildHashExpressionAction`'s filter
columns at a row is the hash of the key tuple reduced modulo the number of
shards. -/
theorem routingIndexOf_buildHash (h : List Val → Nat) (slots : Nat)
    (keyIdxs : List Nat) (names : List String) (row : List Val) (hs : 1 ≤ slots) :
    routingIndexOf (buildHashExpressionAction h slots keyIdxs names) row =
      routeRow h keyIdxs slots row := by
  unfold routingIndexOf buildHashExpressionAction routeRow
  simp only
  rw [findIdx_map]
  exact findIdx_range_of_uniq slots _ _ (Nat.mod_lt _ hs) (by simp)
    (fun j hj => by simp; omega)

/-- Filtering every column with a common mask and then reading rows is the
same as filtering the rows with that mask (column-wise filtering realizes a
row selection). -/
theorem blockRows_filter :
    ∀ (mask : List Bool) (n : Nat) (cols : List (List Val)),
      mask.length = n → ColsWF cols n →
      blockRows (mask.count true) (cols.map (filterByMask mask)) =
        filterByMask mask (blockRows n cols) := by
  intro mask
  induction mask with
  | nil =>
    intro n cols hm _
    cases hm
    simp [blockRows, filterByMask]
  | cons m ms ih =>
    intro n cols hm hw
    cases n with
    | zero => simp at hm
    | succ n' =>
      have hm' : ms.length = n' := by simpa using hm
      have htl : ColsWF (cols.map List.tail) n' := by
        intro c hc
        obtain ⟨c0, hc0, rfl⟩ := List.mem_map.mp hc
        have := hw c0 hc0
        simp [List.length_tail, this]
      cases m with
      | true =>
        have hfb : ∀ c ∈ cols, filterByMask (true :: ms) c =
            c.headD 0 :: filterByMask ms c.tail := by
          intro c hc
          have hlen := hw c hc
          cases c with
          | nil => simp at hlen
          | cons x xs => simp [filterByMask]
        rw [List.map_congr_left hfb]
        have hcnt : (true :: ms).count true = ms.count true + 1 := by
          simp [List.count_cons]
        rw [hcnt]
        show (cols.map fun c => c.headD 0 :: filterByMask ms c.tail).map (fun c => c.headD 0) ::
            blockRows (ms.count true)
              ((cols.map fun c => c.headD 0 :: filterByMask ms c.tail).map List.tail) =
          filterByMask (true :: ms) (blockRows (n' + 1) cols)
        have h1 : (cols.map fun c => c.headD 0 :: filterByMask ms c.tail).map
            (fun c => c.headD 0) = cols.map (fun c => c.headD 0) := by
          simp [List.map_map, Function.comp]
        have h2 : (cols.map fun c => c.headD 0 :: filterByMask ms c.tail).map List.tail =
            (cols.map List.tail).map (filterByMask ms) := by
          simp [List.map_map, Function.comp]
        rw [h1, h2, ih n' (cols.map List.tail) hm' htl]
        simp [blockRows, filterByMask]
      | false =>
        have hfb : ∀ c ∈ cols, filterByMask (false :: ms) c =
            filterByMask ms c.tail := by
          intro c hc
          have hlen := hw c hc
          cases c with
          | nil => simp at hlen
          | cons x xs => simp [filterByMask]
        rw [List.map_congr_left hfb]
        have hcnt : (false :: ms).count true = ms.count true := by
          simp [List.count_cons]
        rw [hcnt]
        have h2 : (cols.map fun c => filterByMask ms c.tail) =
            (cols.map List.tail).map (filterByMask ms) := by
          simp [List.map_map, Function.comp]
        rw [h2, ih n' (cols.map List.tail) hm' htl]
        simp [blockRows, filterByMask]

theorem dispatchBlock_length (dd : DispatchData) (b : Block) :
    (dispatchBlock dd b).length = dd.hash_columns_names.length := by
  simp [dispatchBlock]

theorem buildHash_names_length (h : List Val → Nat) (slots : Nat)
    (keyIdxs : List Nat) (names : List String) :
    (buildHashExpressionAction h slots keyIdxs names).hash_columns_names.length = slots := by
  simp [buildHashExpressionAction]

theorem dispatchBlock_mem_shape (dd : DispatchData) (b : Block) (blk : Block)
    (hblk : blk ∈ dispatchBlock dd b) :
    blk.header = b.header ∧ blk.cols.length = b.cols.length := by
  simp only [dispatchBlock, List.mem_map, List.mem_range] at hblk
  obtain ⟨k, _, rfl⟩ := hblk
  exact ⟨rfl, by simp⟩

/-- The filter value at position `k` of the built hash expression is the
routing comparison against shard `k`. -/
theorem buildHash_expression_getD (h : List Val → Nat) (slots : Nat)
    (keyIdxs : List Nat) (names : List String) (row : List Val) {k : Nat}
    (hk : k < slots) :
    ((buildHashExpressionAction h slots keyIdxs names).hash_expression row).getD k false
      = decide (routeRow h keyIdxs slots row = k) := by
  simp only [buildHashExpressionAction]
  rw [getD_map_range _ _ hk]
  rfl

/-- The rows of shard `k`'s sub-block are exactly the rows of the input that
route to `k`, in their original relative order. -/
theorem dispatch_shard_rowsOf (h : List Val → Nat) (keyIdxs : List Nat)
    (slots : Nat) (names : List String) (b : Block) (n : Nat) {k : Nat}
    (hwf : b.WF n) (hk : k < slots) :
    ((dispatchBlock (buildHashExpressionAction h slots keyIdxs names) b).getD k emptyBlock).rowsOf
      = b.rowsOf.filter (fun row => decide (routeRow h keyIdxs slots row = k)) := by
  have hlen : (buildHashExpressionAction h slots keyIdxs names).hash_columns_names.length
      = slots := buildHash_names_length h slots keyIdxs names
  unfold dispatchBlock
  rw [hlen, getD_map_range _ _ hk]
  have hmask : ∀ row ∈ blockRows b.nrows b.cols,
      ((buildHashExpressionAction h slots keyIdxs names).hash_expression row).getD k false
        = decide (routeRow h keyIdxs slots row = k) :=
    fun row _ => buildHash_expression_getD h slots keyIdxs names row hk
  rw [List.map_congr_left hmask]
  by_cases hcnil : b.cols = []
  · simp [Block.rowsOf, Block.nrows, hcnil, blockRows]
  · obtain ⟨c, cs, hc⟩ := List.exists_cons_of_ne_nil hcnil
    have hcmem : c ∈ b.cols := by rw [hc]; exact List.mem_cons_self c cs
    have hcl : c.length = n := hwf.2 c hcmem
    have hbn : b.nrows = n := by
      simp only [Block.nrows, hc, List.headD_cons]; exact hcl
    set mask := (blockRows b.nrows b.cols).map
      (fun row => decide (routeRow h keyIdxs slots row = k)) with hmaskdef
    have hmlen : mask.length = n := by
      rw [hmaskdef]; simp [blockRows_length, hbn]
    have hnr : (Block.mk b.header (b.cols.map (filterByMask mask))).nrows
        = mask.count true := by
      simp only [Block.nrows, hc, List.map_cons, List.headD_cons]
      exact filterByMask_length mask c (by rw [hmlen, hcl])
    simp only [Block.rowsOf]
    rw [hnr, blockRows_filter mask n b.cols hmlen hwf.2, hmaskdef, hbn,
      filterByMask_map_self]

/-! Lemmas about the pending-worklist insertion loop. -/

theorem getD_set_self {α : Type} (l : List α) (i : Nat) (x d : α) (h : i < l.length) :
    (l.set i x).getD i d = x := by
  rw [List.getD_eq_getElem _ _ (by simpa using h)]
  simp

theorem getD_set_ne {α : Type} (l : List α) (i j : Nat) (x d : α) (h : i ≠ j) :
    (l.set i x).getD j d = l.getD j d := by
  by_cases hj : j < l.length
  · rw [List.getD_eq_getElem _ _ (by simpa using hj), List.getD_eq_getElem _ _ hj]
    simp [h]
  · rw [List.getD_eq_default, List.getD_eq_default]
    · omega
    · simpa using hj

theorem scanPass_pending (avail : Nat → Bool) (blocks : List Block) :
    ∀ (pending : List Nat) (engines : List (List Block)),
      (scanPass avail blocks pending engines).1 =
        pending.filter (fun i => !avail i) := by
  intro pending
  induction pending with
  | nil => intro engines; rfl
  | cons i rest ih =>
    intro engines
    cases hav : avail i with
    | true => simp [scanPass, hav, List.filter_cons, ih]
    | false => simp [scanPass, hav, List.filter_cons, ih]

theorem scanPass_engines_length (avail : Nat → Bool) (blocks : List Block) :
    ∀ (pending : List Nat) (engines : List (List Block)),
      (scanPass avail blocks pending engines).2.length = engines.length := by
  intro pending
  induction pending with
  | nil => intro engines; rfl
  | cons i rest ih =>
    intro engines
    cases hav : avail i with
    | true => simp [scanPass, hav, ih]
    | false => simp [scanPass, hav, ih]

/-- One scan pass appends the dispatched block of every pending index whose
guard is free to that index's engine, and touches nothing else. -/
theorem scanPass_engines_getD (avail : Nat → Bool) (blocks : List Block) :
    ∀ (pending : List Nat) (engines : List (List Block)),
      pending.Nodup → (∀ i ∈ pending, i < engines.length) →
      ∀ j, (scanPass avail blocks pending engines).2.getD j [] =
        if j ∈ pending ∧ avail j = true
        then engines.getD j [] ++ [blocks.getD j emptyBlock]
        else engines.getD j [] := by
  intro pending
  induction pending with
  | nil =>
    intro engines _ _ j
    simp [scanPass]
  | cons i rest ih =>
    intro engines hnd hbd j
    have hndr : rest.Nodup := (List.nodup_cons.mp hnd).2
    have hinr : i ∉ rest := (List.nodup_cons.mp hnd).1
    cases hav : avail i with
    | true =>
      have hstep : (scanPass avail blocks (i :: rest) engines).2 =
          (scanPass avail blocks rest
            (engines.set i (engines.getD i [] ++ [blocks.getD i emptyBlock]))).2 := by
        simp [scanPass, hav]
      rw [hstep]
      have hbd' : ∀ x ∈ rest,
          x < (engines.set i (engines.getD i [] ++ [blocks.getD i emptyBlock])).length := by
        intro x hx
        rw [List.length_set]
        exact hbd x (List.mem_cons_of_mem i hx)
      rw [ih _ hndr hbd' j]
      by_cases hji : j = i
      · subst hji
        have hnotr : ¬ (j ∈ rest ∧ avail j = true) := fun hcon => hinr hcon.1
        have hcond : j ∈ j :: rest ∧ avail j = true := ⟨List.mem_cons_self j rest, hav⟩
        rw [if_neg hnotr, if_pos hcond]
        exact getD_set_self engines j _ []
          (hbd j (List.mem_cons_self j rest))
      · have hgd : (engines.set i (engines.getD i [] ++ [blocks.getD i emptyBlock])).getD j []
            = engines.getD j [] := getD_set_ne engines i j _ [] (fun hceq => hji hceq.symm)
        rw [hgd]
        simp [List.mem_cons, hji]
    | false =>
      have hstep : (scanPass avail blocks (i :: rest) engines).2 =
          (scanPass avail blocks rest engines).2 := by
        simp [scanPass, hav]
      rw [hstep]
      rw [ih engines hndr (fun x hx => hbd x (List.mem_cons_of_mem i hx)) j]
      by_cases hji : j = i
      · subst hji
        have h1 : ¬ (j ∈ rest ∧ avail j = true) := fun hcon => hinr hcon.1
        have h2 : ¬ (j ∈ j :: rest ∧ avail j = true) := fun hcon => by
          rw [hav] at hcon; exact Bool.false_ne_true hcon.2
        rw [if_neg h1, if_neg h2]
      · simp [List.mem_cons, hji]

/-- Under bounded fairness of the try-acquire oracle, the scan loop
terminates before the pass bound with the worklist empty, having appended
each pending index's block to that index's engine exactly once and leaving
every other engine untouched. -/
theorem scanLoop_aux (avail : Nat → Nat → Bool) (blocks : List Block) :
    ∀ (fuel pass : Nat) (pending : List Nat) (engines : List (List Block)),
      pending.Nodup → (∀ i ∈ pending, i < engines.length) →
      (∀ i ∈ pending, ∃ p, pass ≤ p ∧ p < pass + fuel ∧ avail p i = true) →
      ∃ e', scanLoop avail blocks fuel pass pending engines = some e' ∧
        e'.length = engines.length ∧
        (∀ i ∈ pending, e'.getD i [] = engines.getD i [] ++ [blocks.getD i emptyBlock]) ∧
        (∀ j, j ∉ pending → e'.getD j [] = engines.getD j []) := by
  intro fuel
  induction fuel with
  | zero =>
    intro pass pending engines hnd hbd hfair
    cases pending with
    | nil => exact ⟨engines, rfl, rfl, by simp, fun j _ => rfl⟩
    | cons i rest =>
      obtain ⟨p, hp1, hp2, _⟩ := hfair i (List.mem_cons_self i rest)
      omega
  | succ fuel ih =>
    intro pass pending engines hnd hbd hfair
    cases pending with
    | nil => exact ⟨engines, rfl, rfl, by simp, fun j _ => rfl⟩
    | cons i rest =>
      have hstep : scanLoop avail blocks (fuel + 1) pass (i :: rest) engines
          = scanLoop avail blocks fuel (pass + 1)
              (scanPass (avail pass) blocks (i :: rest) engines).1
              (scanPass (avail pass) blocks (i :: rest) engines).2 := rfl
      have hp1 : (scanPass (avail pass) blocks (i :: rest) engines).1
          = (i :: rest).filter (fun x => !avail pass x) :=
        scanPass_pending (avail pass) blocks (i :: rest) engines
      have hlen2 : (scanPass (avail pass) blocks (i :: rest) engines).2.length
          = engines.length :=
        scanPass_engines_length (avail pass) blocks (i :: rest) engines
      have hgetD := scanPass_engines_getD (avail pass) blocks (i :: rest) engines hnd hbd
      have hnd' : (scanPass (avail pass) blocks (i :: rest) engines).1.Nodup := by
        rw [hp1]; exact hnd.filter _
      have hbd' : ∀ x ∈ (scanPass (avail pass) blocks (i :: rest) engines).1,
          x < (scanPass (avail pass) blocks (i :: rest) engines).2.length := by
        intro x hx
        rw [hlen2]
        rw [hp1] at hx
        exact hbd x (List.mem_filter.mp hx).1
      have hfair' : ∀ x ∈ (scanPass (avail pass) blocks (i :: rest) engines).1,
          ∃ p, pass + 1 ≤ p ∧ p < (pass + 1) + fuel ∧ avail p x = true := by
        intro x hx
        rw [hp1] at hx
        obtain ⟨hxp, hxa⟩ := List.mem_filter.mp hx
        obtain ⟨p, hq1, hq2, hq3⟩ := hfair x hxp
        have hpne : p ≠ pass := by
          intro hcon
          subst hcon
          rw [hq3] at hxa
          simp at hxa
        exact ⟨p, by omega, by omega, hq3⟩
      obtain ⟨e', he1, he2, he3, he4⟩ := ih (pass + 1)
        (scanPass (avail pass) blocks (i :: rest) engines).1
        (scanPass (avail pass) blocks (i :: rest) engines).2 hnd' hbd' hfair'
      refine ⟨e', by rw [hstep]; exact he1, by rw [he2, hlen2], ?_, ?_⟩
      · intro x hx
        by_cases hmem : x ∈ (scanPass (avail pass) blocks (i :: rest) engines).1
        · rw [he3 x hmem, hgetD x]
          have hnc : ¬ (x ∈ i :: rest ∧ avail pass x = true) := by
            rw [hp1] at hmem
            obtain ⟨_, hxa⟩ := List.mem_filter.mp hmem
            intro hcon
            rw [hcon.2] at hxa
            simp at hxa
          rw [if_neg hnc]
        · rw [he4 x hmem, hgetD x]
          have hax : avail pass x = true := by
            by_contra hcon
            apply hmem
            rw [hp1]
            refine List.mem_filter.mpr ⟨hx, ?_⟩
            rw [Bool.not_eq_true] at hcon
            rw [hcon]
            rfl
          rw [if_pos ⟨hx, hax⟩]
      · intro j hj
        have hj1 : j ∉ (scanPass (avail pass) blocks (i :: rest) engines).1 := by
          rw [hp1]
          intro hcon
          exact hj (List.mem_filter.mp hcon).1
        rw [he4 j hj1, hgetD j, if_neg (fun hcon => hj hcon.1)]

/-! Lemmas about the probe loop and the reassembly. -/

theorem probeAll_ok (probe : Nat → Block → Block × Bool) :
    ∀ (l : List Block) (i0 : Nat),
      (∀ k, k < l.length → (probe (i0 + k) (l.getD k emptyBlock)).2 = false) →
      probeAll probe i0 l = Except.ok
        ((List.range l.length).map (fun k => (probe (i0 + k) (l.getD k emptyBlock)).1)) := by
  intro l
  induction l with
  | nil => intro i0 _; rfl
  | cons d rest ih =>
    intro i0 hfl
    have h0 : (probe i0 d).2 = false := hfl 0 (by simp)
    have hrest : ∀ k, k < rest.length →
        (probe (i0 + 1 + k) (rest.getD k emptyBlock)).2 = false := by
      intro k hk
      have := hfl (k + 1) (by simpa using Nat.succ_lt_succ hk)
      have harith : i0 + (k + 1) = i0 + 1 + k := by omega
      rw [harith] at this
      exact this
    have hunfold : probeAll probe i0 (d :: rest) =
        if (probe i0 d).2 then
          Except.error (JoinError.logicalError "not_processed should be empty")
        else
          match probeAll probe (i0 + 1) rest with
          | Except.error e => Except.error e
          | Except.ok outs => Except.ok ((probe i0 d).1 :: outs) := rfl
    rw [hunfold, h0, ih (i0 + 1) hrest]
    simp only [Bool.false_eq_true, if_false, List.length_cons,
      List.range_succ_eq_map, List.map_cons, List.map_map]
    congr 2
    apply List.map_congr_left
    intro k _
    simp only [Function.comp_apply]
    have harith : i0 + Nat.succ k = i0 + 1 + k := by omega
    rw [harith, List.getD_cons_succ]

theorem probeAll_error_of_flag (probe : Nat → Block → Block × Bool) :
    ∀ (l : List Block) (i0 : Nat),
      (∃ k, k < l.length ∧ (probe (i0 + k) (l.getD k emptyBlock)).2 = true) →
      probeAll probe i0 l =
        Except.error (JoinError.logicalError "not_processed should be empty") := by
  intro l
  induction l with
  | nil =>
    intro i0 hex
    obtain ⟨k, hk, _⟩ := hex
    simp at hk
  | cons d rest ih =>
    intro i0 hex
    obtain ⟨k, hk, hf⟩ := hex
    cases h0 : (probe i0 d).2 with
    | true => simp [probeAll, h0]
    | false =>
      have hkpos : k ≠ 0 := by
        intro hcon
        subst hcon
        have hf2 : (probe i0 d).2 = true := hf
        rw [h0] at hf2
        exact Bool.false_ne_true hf2
      obtain ⟨k', rfl⟩ := Nat.exists_eq_succ_of_ne_zero hkpos
      have hf' : (probe (i0 + 1 + k') (rest.getD k' emptyBlock)).2 = true := by
        have hf2 : (probe (i0 + (k' + 1)) (rest.getD k' emptyBlock)).2 = true := hf
        have harith : i0 + (k' + 1) = i0 + 1 + k' := by omega
        rw [harith] at hf2
        exact hf2
      have hrest := ih (i0 + 1) ⟨k', Nat.lt_of_succ_lt_succ hk, hf'⟩
      have hunfold : probeAll probe i0 (d :: rest) =
          if (probe i0 d).2 then
            Except.error (JoinError.logicalError "not_processed should be empty")
          else
            match probeAll probe (i0 + 1) rest with
            | Except.error e => Except.error e
            | Except.ok outs => Except.ok ((probe i0 d).1 :: outs) := rfl
      rw [hunfold, h0, hrest]
      simp

/-- When no shard leaves unprocessed rows, `joinBlock` succeeds with the
reassembly of the per-shard probe outputs. -/
theorem joinBlock_ok_of_noflags (c : ConcurrentHashJoin)
    (probe : Nat → Block → Block × Bool) (b : Block)
    (hflags : ∀ i, i < (dispatchBlock c.left_data b).length →
      (probe i ((dispatchBlock c.left_data b).getD i emptyBlock)).2 = false) :
    c.joinBlock probe b =
      Except.ok (reassembleBlocks (probeOuts probe (dispatchBlock c.left_data b))) := by
  have hok := probeAll_ok probe (dispatchBlock c.left_data b) 0
    (fun k hk => by rw [Nat.zero_add]; exact hflags k hk)
  have houts : (List.range (dispatchBlock c.left_data b).length).map
      (fun k => (probe (0 + k) ((dispatchBlock c.left_data b).getD k emptyBlock)).1)
      = probeOuts probe (dispatchBlock c.left_data b) := by
    apply List.map_congr_left
    intro k _
    rw [Nat.zero_add]
  rw [ConcurrentHashJoin.joinBlock, hok, houts]

theorem getD_zero_eq_headD {α : Type} (l : List α) (d : α) : l.getD 0 d = l.headD d := by
  cases l <;> rfl

theorem map_append_eq_zipWith {α β : Type} (f g : β → List α) :
    ∀ l : List β, l.map (fun i => f i ++ g i) =
      List.zipWith (fun a b => a ++ b) (l.map f) (l.map g) := by
  intro l
  induction l with
  | nil => rfl
  | cons x xs ih =>
    simp only [List.map_cons, List.zipWith_cons_cons]
    rw [ih]

theorem zipWith_append_nil_left :
    ∀ (cols0 colsR : List (List Val)), (∀ c ∈ cols0, c = []) →
      cols0.length = colsR.length →
      List.zipWith (fun a b => a ++ b) cols0 colsR = colsR := by
  intro cols0
  induction cols0 with
  | nil =>
    intro colsR _ hlen
    cases colsR with
    | nil => rfl
    | cons r rs => simp at hlen
  | cons c cs ih =>
    intro colsR hnil hlen
    cases colsR with
    | nil => simp at hlen
    | cons r rs =>
      have hc : c = [] := hnil c (List.mem_cons_self c cs)
      simp only [List.zipWith_cons_cons, hc, List.nil_append]
      rw [ih rs (fun x hx => hnil x (List.mem_cons_of_mem c hx)) (by simpa using hlen)]

theorem zipWith_append_heads (n : Nat) :
    ∀ (cols0 colsR : List (List Val)), cols0.length = colsR.length →
      ColsWF cols0 (n + 1) →
      (List.zipWith (fun a b => a ++ b) cols0 colsR).map (fun c => c.headD 0)
        = cols0.map (fun c => c.headD 0) := by
  intro cols0
  induction cols0 with
  | nil => intro colsR _ _; rfl
  | cons c cs ih =>
    intro colsR hlen hwf
    cases colsR with
    | nil => simp at hlen
    | cons r rs =>
      have hc := hwf c (List.mem_cons_self c cs)
      cases c with
      | nil => simp at hc
      | cons x xs =>
        simp only [List.zipWith_cons_cons, List.map_cons, List.cons_append,
          List.headD_cons]
        rw [ih rs (by simpa using hlen)
          (fun c' hc' => hwf c' (List.mem_cons_of_mem _ hc'))]

theorem zipWith_append_tails (n : Nat) :
    ∀ (cols0 colsR : List (List Val)), cols0.length = colsR.length →
      ColsWF cols0 (n + 1) →
      (List.zipWith (fun a b => a ++ b) cols0 colsR).map List.tail
        = List.zipWith (fun a b => a ++ b) (cols0.map List.tail) colsR := by
  intro cols0
  induction cols0 with
  | nil => intro colsR _ _; rfl
  | cons c cs ih =>
    intro colsR hlen hwf
    cases colsR with
    | nil => simp at hlen
    | cons r rs =>
      have hc := hwf c (List.mem_cons_self c cs)
      cases c with
      | nil => simp at hc
      | cons x xs =>
        simp only [List.zipWith_cons_cons, List.map_cons, List.cons_append,
          List.tail_cons]
        rw [ih rs (by simpa using hlen)
          (fun c' hc' => hwf c' (List.mem_cons_of_mem _ hc'))]

/-- Reading rows of column-wise concatenated blocks gives the rows of the
first block followed by the rows of the rest (shard order is preserved). -/
theorem blockRows_append :
    ∀ (n0 : Nat) (cols0 colsR : List (List Val)) (m : Nat),
      ColsWF cols0 n0 → cols0.length = colsR.length →
      blockRows (n0 + m) (List.zipWith (fun a b => a ++ b) cols0 colsR) =
        blockRows n0 cols0 ++ blockRows m colsR := by
  intro n0
  induction n0 with
  | zero =>
    intro cols0 colsR m hwf hlen
    have hz : List.zipWith (fun a b => a ++ b) cols0 colsR = colsR :=
      zipWith_append_nil_left cols0 colsR
        (fun c hc => List.eq_nil_of_length_eq_zero (hwf c hc)) hlen
    rw [Nat.zero_add, hz]
    simp [blockRows]
  | succ n0 ih =>
    intro cols0 colsR m hwf hlen
    have harith : (n0 + 1) + m = (n0 + m) + 1 := by omega
    rw [harith]
    simp only [blockRows]
    rw [zipWith_append_heads n0 cols0 colsR hlen hwf,
      zipWith_append_tails n0 cols0 colsR hlen hwf]
    have hwf' : ColsWF (cols0.map List.tail) n0 := by
      intro c hc
      obtain ⟨c0, hc0, rfl⟩ := List.mem_map.mp hc
      simp [List.length_tail, hwf c0 hc0]
    rw [ih (cols0.map List.tail) colsR m hwf' (by simpa using hlen)]
    simp [List.cons_append]

/-- Transposing the reassembled columns yields the concatenation of the
per-shard row lists, in shard index order. -/
theorem blockRows_concat :
    ∀ (outs : List Block) (ncols : Nat),
      (∀ o ∈ outs, o.cols.length = ncols ∧ ColsWF o.cols o.nrows) →
      blockRows ((outs.map Block.nrows).sum) ((List.range ncols).map (concatColsAt outs)) =
        (outs.map Block.rowsOf).flatten := by
  intro outs
  induction outs with
  | nil =>
    intro ncols _
    simp [blockRows]
  | cons o os ih =>
    intro ncols hhom
    have ho := hhom o (List.mem_cons_self o os)
    have hsplit : (List.range ncols).map (concatColsAt (o :: os))
        = List.zipWith (fun a b => a ++ b) o.cols
            ((List.range ncols).map (concatColsAt os)) := by
      have h1 : (List.range ncols).map (concatColsAt (o :: os))
          = (List.range ncols).map
              (fun pos => o.cols.getD pos [] ++ concatColsAt os pos) := by
        apply List.map_congr_left
        intro pos _
        simp [concatColsAt]
      rw [h1, map_append_eq_zipWith]
      congr 1
      rw [← ho.1]
      exact map_getD_range o.cols []
    have hsum : ((o :: os).map Block.nrows).sum
        = o.nrows + ((os.map Block.nrows)).sum := by simp
    rw [hsplit, hsum,
      blockRows_append o.nrows o.cols ((List.range ncols).map (concatColsAt os))
        ((os.map Block.nrows).sum) ho.2 (by simp [ho.1]),
      ih ncols (fun o' ho' => hhom o' (List.mem_cons_of_mem o ho'))]
    simp [Block.rowsOf]

/-- The reassembled block's row count is the total row count of the
per-shard outputs. -/
theorem reassemble_nrows (outs : List Block)
    (hhom : ∀ o ∈ outs, o.cols.length = (outs.headD emptyBlock).header.length) :
    (reassembleBlocks outs).nrows = (outs.map Block.nrows).sum := by
  rcases hn : (outs.headD emptyBlock).header.length with _ | k
  · have hz : ∀ o ∈ outs, Block.nrows o = 0 := by
      intro o ho
      have h1 := hhom o ho
      rw [hn] at h1
      have h2 : o.cols = [] := List.eq_nil_of_length_eq_zero h1
      simp [Block.nrows, h2]
    have hsum : (outs.map Block.nrows).sum = 0 := by
      apply List.sum_eq_zero
      intro x hx
      obtain ⟨o, ho, rfl⟩ := List.mem_map.mp hx
      exact hz o ho
    rw [hsum]
    show (reassembleBlocks outs).nrows = 0
    simp only [reassembleBlocks, Block.nrows]
    rw [hn]
    simp
  · have hhead : (reassembleBlocks outs).nrows = (concatColsAt outs 0).length := by
      simp only [reassembleBlocks, Block.nrows]
      rw [hn, List.range_succ_eq_map]
      simp
    rw [hhead]
    simp only [concatColsAt, List.length_flatten, List.map_map]
    congr 1
    apply List.map_congr_left
    intro o _
    show (o.cols.getD 0 []).length = o.nrows
    rw [getD_zero_eq_headD]
    rfl

/-- The rows of the reassembled block are the per-shard output rows
concatenated in shard index order. -/
theorem reassembleBlocks_rowsOf (outs : List Block)
    (hhom : ∀ o ∈ outs, o.cols.length = (outs.headD emptyBlock).header.length
      ∧ ColsWF o.cols o.nrows) :
    (reassembleBlocks outs).rowsOf = (outs.map Block.rowsOf).flatten := by
  have h1 := reassemble_nrows outs (fun o ho => (hhom o ho).1)
  have h2 : (reassembleBlocks outs).rowsOf
      = blockRows (reassembleBlocks outs).nrows (reassembleBlocks outs).cols := rfl
  rw [h2, h1]
  exact blockRows_concat outs _ (fun o ho => hhom o ho)

/-! The claims. -/

/-- Claim C1: for every key tuple V and every shard count N ≥ 1, the
build-side and probe-side routing functions constructed at coordinator
construction map V to the same shard index in [0, N): whenever a left row
and a right row carry the same key tuple, the routing index read back from
the left-side filter columns equals the one read back from the right-side
filter columns, and it is below the shard count. -/
theorem claim1_routing_consistency (h : List Val → Nat) (slots : Nat)
    (lkeys rkeys : List Nat) (lnames rnames : List String)
    (rowL rowR : List Val) (hs : 1 ≤ slots)
    (hkeys : keyTuple lkeys rowL = keyTuple rkeys rowR) :
    routingIndexOf (buildHashExpressionAction h slots lkeys lnames) rowL =
      routingIndexOf (buildHashExpressionAction h slots rkeys rnames) rowR ∧
    routingIndexOf (buildHashExpressionAction h slots lkeys lnames) rowL < slots := by
  have h1 := routingIndexOf_buildHash h slots lkeys lnames rowL hs
  have h2 := routingIndexOf_buildHash h slots rkeys rnames rowR hs
  constructor
  · rw [h1, h2]
    simp only [routeRow, hkeys]
  · rw [h1]
    exact Nat.mod_lt _ hs

/-- Witness for C1: two shards, key read from different positions on the
two sides but carrying the same value tuple. -/
theorem claim1_routing_consistency_witness :
    routingIndexOf (buildHashExpressionAction hashW 2 [0] ["a"]) [5, 77] =
      routingIndexOf (buildHashExpressionAction hashW 2 [1] ["b"]) [3, 5] ∧
    routingIndexOf (buildHashExpressionAction hashW 2 [0] ["a"]) [5, 77] < 2 :=
  claim1_routing_consistency hashW 2 [0] [1] ["a"] ["b"] [5, 77] [3, 5]
    (by decide) (by decide)

/-- Claim C2: dispatch produces exactly N sub-batches; every sub-batch
keeps the original header (names and types) and column count; the routing
function is total into [0, N); and shard k's rows are exactly the input
rows routing to k in their original relative order — so the sub-batches
partition the input's rows, and an empty input yields N empty but present
sub-batches. -/
theorem claim2_dispatch_partition (h : List Val → Nat) (keyIdxs : List Nat)
    (slots : Nat) (names : List String) (b : Block) (n : Nat)
    (hwf : b.WF n) (hs : 1 ≤ slots) :
    (dispatchBlock (buildHashExpressionAction h slots keyIdxs names) b).length = slots ∧
    (∀ blk ∈ dispatchBlock (buildHashExpressionAction h slots keyIdxs names) b,
      blk.header = b.header ∧ blk.cols.length = b.cols.length) ∧
    (∀ row : List Val, routeRow h keyIdxs slots row < slots) ∧
    (∀ k, k < slots →
      ((dispatchBlock (buildHashExpressionAction h slots keyIdxs names) b).getD
          k emptyBlock).rowsOf
        = b.rowsOf.filter (fun row => decide (routeRow h keyIdxs slots row = k))) := by
  refine ⟨?_, ?_, ?_, ?_⟩
  · rw [dispatchBlock_length, buildHash_names_length]
  · intro blk hblk
    exact dispatchBlock_mem_shape _ _ _ hblk
  · intro row
    exact Nat.mod_lt _ hs
  · intro k hk
    exact dispatch_shard_rowsOf h keyIdxs slots names b n hwf hk

/-- Witness for C2: a four-row two-column batch over two shards. -/
theorem claim2_dispatch_partition_witness :
    (dispatchBlock (buildHashExpressionAction hashW 2 [0] ["k"]) blockW).length = 2 ∧
    (∀ blk ∈ dispatchBlock (buildHashExpressionAction hashW 2 [0] ["k"]) blockW,
      blk.header = blockW.header ∧ blk.cols.length = blockW.cols.length) ∧
    (∀ row : List Val, routeRow hashW [0] 2 row < 2) ∧
    (∀ k, k < 2 →
      ((dispatchBlock (buildHashExpressionAction hashW 2 [0] ["k"]) blockW).getD
          k emptyBlock).rowsOf
        = blockW.rowsOf.filter (fun row => decide (routeRow hashW [0] 2 row = k))) :=
  claim2_dispatch_partition hashW [0] 2 ["k"] blockW 4 (by decide) (by decide)

/-- Claim C9: dispatch is deterministic and referentially transparent — in
the embedding it is a pure function of the dispatch data and the batch, so
invoking it twice on equal inputs yields identical sub-batch sequences and
it neither reads nor mutates any state outside its inputs. -/
theorem claim9_dispatch_deterministic (dd : DispatchData) (b1 b2 : Block)
    (hb : b1 = b2) :
    dispatchBlock dd b1 = dispatchBlock dd b2 := by
  rw [hb]

/-- Witness for C9 at a concrete batch. -/
theorem claim9_dispatch_deterministic_witness :
    dispatchBlock ddW blockW = dispatchBlock ddW blockW :=
  claim9_dispatch_deterministic ddW blockW blockW rfl

/-- Claim C3: the build-side insertion scans a pending worklist of shard
indices with non-blocking try-acquire; provided every shard's guard is
eventually free (within some pass bound B), the loop terminates with the
worklist empty, each of the N dispatched sub-batches appended to its own
shard's engine exactly once (no sub-batch skipped or inserted twice), and
every other engine untouched. -/
theorem claim3_build_worklist (avail : Nat → Nat → Bool) (dd : DispatchData)
    (b : Block) (engines : List (List Block)) (B : Nat)
    (hlen : engines.length = (dispatchBlock dd b).length)
    (hfair : ∀ i, i < (dispatchBlock dd b).length → ∃ p, p < B ∧ avail p i = true) :
    ∃ e', scanLoop avail (dispatchBlock dd b) B 0
        (List.range (dispatchBlock dd b).length) engines = some e' ∧
      e'.length = engines.length ∧
      (∀ i, i < (dispatchBlock dd b).length →
        e'.getD i [] = engines.getD i [] ++ [(dispatchBlock dd b).getD i emptyBlock]) ∧
      (∀ j, (dispatchBlock dd b).length ≤ j → e'.getD j [] = engines.getD j []) := by
  obtain ⟨e', h1, h2, h3, h4⟩ := scanLoop_aux avail (dispatchBlock dd b) B 0
    (List.range (dispatchBlock dd b).length) engines (List.nodup_range _)
    (fun i hi => by rw [hlen]; exact List.mem_range.mp hi)
    (fun i hi => by
      obtain ⟨p, hp, ha⟩ := hfair i (List.mem_range.mp hi)
      exact ⟨p, Nat.zero_le p, by omega, ha⟩)
  refine ⟨e', h1, h2, ?_, ?_⟩
  · intro i hi
    exact h3 i (List.mem_range.mpr hi)
  · intro j hj
    refine h4 j (fun hcon => ?_)
    have := List.mem_range.mp hcon
    omega

/-- Witness for C3: two shards, all guards free on the first pass. -/
theorem claim3_build_worklist_witness :
    ∃ e', scanLoop (fun _ _ => true) (dispatchBlock ddW blockW) 1 0
        (List.range (dispatchBlock ddW blockW).length) [[], []] = some e' ∧
      e'.length = ([[], []] : List (List Block)).length ∧
      (∀ i, i < (dispatchBlock ddW blockW).length →
        e'.getD i [] = ([[], []] : List (List Block)).getD i []
          ++ [(dispatchBlock ddW blockW).getD i emptyBlock]) ∧
      (∀ j, (dispatchBlock ddW blockW).length ≤ j →
        e'.getD j [] = ([[], []] : List (List Block)).getD j []) :=
  claim3_build_worklist (fun _ _ => true) ddW blockW [[], []] 1
    (by decide) (fun i _ => ⟨0, by decide, rfl⟩)

/-- Claim C4: probing raises the internal-consistency `LOGICAL_ERROR`
exactly when some shard's probe leaves a non-empty unprocessed set; when
every shard's unprocessed set is empty, `joinBlock` returns a result and no
such error is raised. -/
theorem claim4_probe_unprocessed (c : ConcurrentHashJoin)
    (probe : Nat → Block → Block × Bool) (b : Block) :
    ((∃ i, i < (dispatchBlock c.left_data b).length ∧
        (probe i ((dispatchBlock c.left_data b).getD i emptyBlock)).2 = true) ↔
      c.joinBlock probe b =
        Except.error (JoinError.logicalError "not_processed should be empty")) ∧
    ((∀ i, i < (dispatchBlock c.left_data b).length →
        (probe i ((dispatchBlock c.left_data b).getD i emptyBlock)).2 = false) →
      ∃ out, c.joinBlock probe b = Except.ok out) := by
  constructor
  · constructor
    · intro hex
      have herr := probeAll_error_of_flag probe (dispatchBlock c.left_data b) 0
        (by
          obtain ⟨i, hi, hf⟩ := hex
          exact ⟨i, hi, by rw [Nat.zero_add]; exact hf⟩)
      rw [ConcurrentHashJoin.joinBlock, herr]
    · intro heq
      by_contra hnex
      push_neg at hnex
      have hall : ∀ i, i < (dispatchBlock c.left_data b).length →
          (probe i ((dispatchBlock c.left_data b).getD i emptyBlock)).2 = false := by
        intro i hi
        have hne := hnex i hi
        simpa using hne
      rw [joinBlock_ok_of_noflags c probe b hall] at heq
      exact Except.noConfusion heq
  · intro hall
    exact ⟨_, joinBlock_ok_of_noflags c probe b hall⟩

/-- Witness for C4: an engine that leaves no unprocessed rows lets the
probe succeed. -/
theorem claim4_probe_unprocessed_witness :
    ∃ out, coordW.joinBlock probeIdW blockW = Except.ok out :=
  (claim4_probe_unprocessed coordW probeIdW blockW).2 (fun _ _ => rfl)

/-- Claim C5: when no shard leaves unprocessed rows, `joinBlock` returns
the reassembly of the per-shard outputs: the result's names and types are
shard 0's output header, each output column position is the concatenation
of the corresponding per-shard column in shard index order, and (for
homogeneous well-formed outputs) the result rows are the per-shard rows
appended in shard index order, each shard's row order preserved. -/
theorem claim5_probe_reassembly (c : ConcurrentHashJoin)
    (probe : Nat → Block → Block × Bool) (b : Block)
    (hflags : ∀ i, i < (dispatchBlock c.left_data b).length →
      (probe i ((dispatchBlock c.left_data b).getD i emptyBlock)).2 = false)
    (hhom : ∀ o ∈ probeOuts probe (dispatchBlock c.left_data b),
      o.cols.length
          = ((probeOuts probe (dispatchBlock c.left_data b)).headD emptyBlock).header.length
        ∧ ColsWF o.cols o.nrows) :
    c.joinBlock probe b
        = Except.ok (reassembleBlocks (probeOuts probe (dispatchBlock c.left_data b))) ∧
    (reassembleBlocks (probeOuts probe (dispatchBlock c.left_data b))).header
        = ((probeOuts probe (dispatchBlock c.left_data b)).headD emptyBlock).header ∧
    (∀ pos, pos <
        ((probeOuts probe (dispatchBlock c.left_data b)).headD emptyBlock).header.length →
      (reassembleBlocks (probeOuts probe (dispatchBlock c.left_data b))).cols.getD pos []
        = ((probeOuts probe (dispatchBlock c.left_data b)).map
            (fun o => o.cols.getD pos [])).flatten) ∧
    (reassembleBlocks (probeOuts probe (dispatchBlock c.left_data b))).rowsOf
        = ((probeOuts probe (dispatchBlock c.left_data b)).map Block.rowsOf).flatten := by
  refine ⟨joinBlock_ok_of_noflags c probe b hflags, rfl, ?_, ?_⟩
  · intro pos hpos
    exact getD_map_range _ _ hpos
  · exact reassembleBlocks_rowsOf _ hhom

/-- Witness for C5: probing the concrete two-shard coordinator with the
echo engine. -/
theorem claim5_probe_reassembly_witness :
    coordW.joinBlock probeIdW blockW
        = Except.ok (reassembleBlocks (probeOuts probeIdW (dispatchBlock coordW.left_data blockW))) ∧
    (reassembleBlocks (probeOuts probeIdW (dispatchBlock coordW.left_data blockW))).header
        = ((probeOuts probeIdW (dispatchBlock coordW.left_data blockW)).headD emptyBlock).header ∧
    (∀ pos, pos <
        ((probeOuts probeIdW (dispatchBlock coordW.left_data blockW)).headD
          emptyBlock).header.length →
      (reassembleBlocks (probeOuts probeIdW (dispatchBlock coordW.left_data blockW))).cols.getD
          pos []
        = ((probeOuts probeIdW (dispatchBlock coordW.left_data blockW)).map
            (fun o => o.cols.getD pos [])).flatten) ∧
    (reassembleBlocks (probeOuts probeIdW (dispatchBlock coordW.left_data blockW))).rowsOf
        = ((probeOuts probeIdW (dispatchBlock coordW.left_data blockW)).map
            Block.rowsOf).flatten :=
  claim5_probe_reassembly coordW probeIdW blockW (fun _ _ => rfl) (by decide)

/-- Claim C6: with `check_limits` set, `addJoinedBlock` checks — only after
all sub-batches have been inserted — the totals summed over all shards
against the configured limits and fails with the size-limit error naming
"JOIN" and the current counts when a limit is exceeded; with `check_limits`
unset it returns success without any check. -/
theorem claim6_limit_check (c : ConcurrentHashJoin) (limits : SizeLimits)
    (bytes : Block → Nat) (b : Block) :
    (c.addJoinedBlock limits bytes b false = Except.ok (c.insertDispatched b, true)) ∧
    (((limits.max_rows ≠ 0 ∧ limits.max_rows < (c.insertDispatched b).getTotalRowCount) ∨
      (limits.max_bytes ≠ 0 ∧
        limits.max_bytes < (c.insertDispatched b).getTotalByteCount bytes)) →
      c.addJoinedBlock limits bytes b true = Except.error
        (JoinError.sizeLimitExceeded "JOIN" (c.insertDispatched b).getTotalRowCount
          ((c.insertDispatched b).getTotalByteCount bytes))) ∧
    (¬ ((limits.max_rows ≠ 0 ∧ limits.max_rows < (c.insertDispatched b).getTotalRowCount) ∨
        (limits.max_bytes ≠ 0 ∧
          limits.max_bytes < (c.insertDispatched b).getTotalByteCount bytes)) →
      c.addJoinedBlock limits bytes b true = Except.ok (c.insertDispatched b, true)) := by
  refine ⟨rfl, ?_, ?_⟩
  · intro hex
    simp only [ConcurrentHashJoin.addJoinedBlock, SizeLimits.check, if_pos hex, if_true]
  · intro hnex
    simp only [ConcurrentHashJoin.addJoinedBlock, SizeLimits.check, if_neg hnex, if_true]

/-- Witness for C6, the spec's concrete scenario: limit of one row, a
second single-row build batch inserted with enforcement on reports a
size-limit error with count 2. -/
theorem claim6_limit_check_witness :
    coordW1b.addJoinedBlock limitsW bytesW blockW1 true
      = Except.error (JoinError.sizeLimitExceeded "JOIN" 2 0) := by
  have h := (claim6_limit_check coordW1b limitsW bytesW blockW1).2.1 (Or.inl (by decide))
  have hr : (coordW1b.insertDispatched blockW1).getTotalRowCount = 2 := by decide
  have hy : (coordW1b.insertDispatched blockW1).getTotalByteCount bytesW = 0 := by decide
  rw [hr, hy] at h
  exact h

/-- Claim C7 fails on the code: for a right join with `All` strictness — a
full/right-outer, non-semi, non-as-of combination for which the claim
promises a usable capability to iterate unmatched build-side rows —
`getNonJoinedBlocks` instead raises the internal-consistency error. -/
theorem claim7_counterexample :
    getNonJoinedBlocks JoinKind.Right JoinStrictness.All
      = Except.error (JoinError.logicalError "Invalid join type") := rfl

/-- Claim C7 (amended): `getNonJoinedBlocks` returns the empty "not
applicable" capability (not an error) exactly for semi or as-of strictness
or a kind that is not right or full; every other combination — including
full/right-outer, non-semi, non-as-of joins — fails with the
internal-consistency error; a usable capability is never returned. -/
theorem claim7_nonjoined_cases (kind : JoinKind) (strictness : JoinStrictness) :
    (getNonJoinedBlocks kind strictness = Except.ok none ↔
      (strictness = JoinStrictness.Asof ∨ strictness = JoinStrictness.Semi ∨
        (kind ≠ JoinKind.Right ∧ kind ≠ JoinKind.Full))) ∧
    (getNonJoinedBlocks kind strictness
        = Except.error (JoinError.logicalError "Invalid join type") ↔
      ¬ (strictness = JoinStrictness.Asof ∨ strictness = JoinStrictness.Semi ∨
        (kind ≠ JoinKind.Right ∧ kind ≠ JoinKind.Full))) ∧
    (∀ cap : Unit, getNonJoinedBlocks kind strictness ≠ Except.ok (some cap)) := by
  cases kind <;> cases strictness <;> decide

/-- State reached on the success path of `addJoinedBlock`: whenever it
returns `ok`, the new coordinator state is the one with all dispatched
sub-batches inserted. -/
theorem addJoinedBlock_ok_state (c : ConcurrentHashJoin) (limits : SizeLimits)
    (bytes : Block → Nat) (b : Block) (chk : Bool) (r : ConcurrentHashJoin × Bool)
    (hr : c.addJoinedBlock limits bytes b chk = Except.ok r) :
    r.1 = c.insertDispatched b := by
  cases chk with
  | false =>
    have h2 : (c.insertDispatched b, true) = r := Except.ok.inj hr
    rw [← h2]
  | true =>
    simp only [ConcurrentHashJoin.addJoinedBlock, if_true] at hr
    cases hcheck : SizeLimits.check limits (c.insertDispatched b).getTotalRowCount
        ((c.insertDispatched b).getTotalByteCount bytes) "JOIN" with
    | error e =>
      rw [hcheck] at hr
      exact Except.noConfusion hr
    | ok okv =>
      rw [hcheck] at hr
      have h2 := Except.ok.inj hr
      rw [← h2]

theorem insertDispatched_slots (c : ConcurrentHashJoin) (b : Block) :
    (c.insertDispatched b).slots = c.slots := rfl

theorem insertDispatched_engines_length (c : ConcurrentHashJoin) (b : Block) :
    (c.insertDispatched b).engines.length = c.engines.length :=
  scanPass_engines_length _ _ _ _

/-- Claim C8: constructing with shard count 0 fails with the bad-arguments
error and creates no shards; for N ≥ 1 construction succeeds with exactly N
shards, each engine its own fresh empty instance, and the shard count and
the number of engines are preserved by every successful build insertion. -/
theorem claim8_construction (h : List Val → Nat) (slots : Nat)
    (lkeys rkeys : List Nat) (lnames rnames : List String) (hs : 1 ≤ slots) :
    (mkConcurrentHashJoin h 0 lkeys rkeys lnames rnames
      = Except.error (JoinError.badArguments "Invalid argument slot : 0")) ∧
    (∃ c, mkConcurrentHashJoin h slots lkeys rkeys lnames rnames = Except.ok c ∧
      c.slots = slots ∧ c.engines.length = slots ∧ (∀ e ∈ c.engines, e = []) ∧
      (∀ (b : Block) (limits : SizeLimits) (bytes : Block → Nat) (chk : Bool)
          (r : ConcurrentHashJoin × Bool),
        c.addJoinedBlock limits bytes b chk = Except.ok r →
        r.1.slots = slots ∧ r.1.engines.length = slots)) := by
  constructor
  · rfl
  · have hne : ¬ slots = 0 := by omega
    have hcok : mkConcurrentHashJoin h slots lkeys rkeys lnames rnames = Except.ok
        { slots := slots
          engines := List.replicate slots []
          left_data := buildHashExpressionAction h slots lkeys lnames
          right_data := buildHashExpressionAction h slots rkeys rnames
          totals := emptyBlock } := by
      simp [mkConcurrentHashJoin, hne]
    refine ⟨_, hcok, rfl, by simp, ?_, ?_⟩
    · intro e he
      exact List.eq_of_mem_replicate he
    · intro b limits bytes chk r hr
      have hst := addJoinedBlock_ok_state _ limits bytes b chk r hr
      rw [hst]
      constructor
      · rw [insertDispatched_slots]
      · rw [insertDispatched_engines_length]
        simp

/-- Witness for C8 at shard count 2. -/
theorem claim8_construction_witness :
    (mkConcurrentHashJoin hashW 0 [0] [0] ["k"] ["k"]
      = Except.error (JoinError.badArguments "Invalid argument slot : 0")) ∧
    (∃ c, mkConcurrentHashJoin hashW 2 [0] [0] ["k"] ["k"] = Except.ok c ∧
      c.slots = 2 ∧ c.engines.length = 2 ∧ (∀ e ∈ c.engines, e = []) ∧
      (∀ (b : Block) (limits : SizeLimits) (bytes : Block → Nat) (chk : Bool)
          (r : ConcurrentHashJoin × Bool),
        c.addJoinedBlock limits bytes b chk = Except.ok r →
        r.1.slots = 2 ∧ r.1.engines.length = 2)) :=
  claim8_construction hashW 2 [0] [0] ["k"] ["k"] (by decide)

/-- Claim C10: `setTotals` with an empty (columnless, hence falsy) block is
a no-op — the whole coordinator state is unchanged and `getTotals` still
returns the previously stored value; and `setTotals` with any block leaves
every field other than `totals` unchanged. -/
theorem claim10_setTotals_frame (c : ConcurrentHashJoin) (b b2 : Block)
    (hb : b.cols = []) :
    c.setTotals b = c ∧
    (c.setTotals b).getTotals = c.getTotals ∧
    (c.setTotals b2).slots = c.slots ∧
    (c.setTotals b2).engines = c.engines ∧
    (c.setTotals b2).left_data = c.left_data ∧
    (c.setTotals b2).right_data = c.right_data := by
  have h1 : c.setTotals b = c := by
    simp [ConcurrentHashJoin.setTotals, hb]
  have h2 : (c.setTotals b2).slots = c.slots ∧
      (c.setTotals b2).engines = c.engines ∧
      (c.setTotals b2).left_data = c.left_data ∧
      (c.setTotals b2).right_data = c.right_data := by
    by_cases hb2 : b2.cols.isEmpty <;>
      simp [ConcurrentHashJoin.setTotals, hb2]
  exact ⟨h1, by rw [h1], h2.1, h2.2.1, h2.2.2.1, h2.2.2.2⟩

/-- Witness for C10: the default-constructed empty block against the
concrete coordinator. -/
theorem claim10_setTotals_frame_witness :
    coordW.setTotals emptyBlock = coordW ∧
    (coordW.setTotals emptyBlock).getTotals = coordW.getTotals ∧
    (coordW.setTotals blockW).slots = coordW.slots ∧
    (coordW.setTotals blockW).engines = coordW.engines ∧
    (coordW.setTotals blockW).left_data = coordW.left_data ∧
    (coordW.setTotals blockW).right_data = coordW.right_data :=
  claim10_setTotals_frame coordW emptyBlock blockW rfl

end CHJ
